import Mathlib

/-!
Verification of the coinsnake aggregation engine (src/coinsnake/price.py)
and event fan-out layer (src/coinsnake/event.py, src/coinsnake/message.py).

Python floats are modelled as rationals (ℚ); every numeric literal in the
claims is exactly representable in binary floating point, and none of the
verified operations depend on rounding.  Python exceptions are modelled
explicitly: fallible operations return an `Option PyErr` result paired with
the post-call state (mutations that happen before a raise are preserved,
matching Python object semantics).
-/

/-- The Python exception kinds raised by the embedded code. -/
inductive PyErr where
  | typeError
  | valueError
  | keyError
  | indexError
  | zeroDivisionError
deriving DecidableEq

/-- A history entry of `PriceHistory`: the tuple
`(p_high, p_low, p_open, p_close, p_volume)` built in
`PriceHistory.process_buffer` (price.py line 97).  `opn` stands for the
`open` component (`open` is a Lean keyword). -/
structure Candle where
  high : ℚ
  low : ℚ
  opn : ℚ
  close : ℚ
  volume : ℚ
deriving DecidableEq

/-- Constant `CHANGE_INTERVALS` from price.py line 17. -/
def CHANGE_INTERVALS : List ℕ := [1, 5, 15, 60, 360, 720, 1440, 2880]

/-- Constant `PRICE_HISTORY_RESOLUTION` from settings.py line 21. -/
def PRICE_HISTORY_RESOLUTION : ℕ := 60

/-- The mutable state of a `PriceHistory` object (price.py lines 27-37):
display ticker, candle history, most recent price, and the tick buffer of
`(price, volume)` pairs. -/
structure PriceHistory where
  ticker : String
  history : List Candle
  last : ℚ
  buffer : List (ℚ × ℚ)
deriving DecidableEq

/-- ASCII uppercase of one character, as Python `str.upper` acts on the
ASCII currency-pair labels this program uses. -/
def pyUpperChar (c : Char) : Char :=
  if 97 ≤ c.toNat ∧ c.toNat ≤ 122 then Char.ofNat (c.toNat - 32) else c

/-- Python `str.upper()` on ASCII strings (price.py line 34). -/
def pyUpper (s : String) : String := ⟨s.data.map pyUpperChar⟩

/-- Constructor `PriceHistory.__init__` (price.py lines 27-37): the ticker label is
uppercased for display, history and buffer start empty, `last` starts at
`1.0`. -/
def PriceHistory.init (ticker : String) : PriceHistory :=
  { ticker := pyUpper ticker, history := [], last := 1, buffer := [] }

/-- One iteration of the `for val, vol in self._buffer` loop of
`PriceHistory.process_buffer` (price.py lines 89-95) acting on the state
`(p_high, p_low, p_close, p_volume)`; `p_open` is never reassigned. -/
def bufStep (acc : ℚ × ℚ × ℚ × ℚ) (x : ℚ × ℚ) : ℚ × ℚ × ℚ × ℚ :=
  match acc, x with
  | (hi, lo, _, vol), (val, v) =>
    if val < lo then (hi, val, val, vol + v)
    else if hi < val then (val, lo, val, vol + v)
    else (hi, lo, val, vol + v)

/-- Method `PriceHistory.process_buffer` (price.py lines 74-101): a non-empty
buffer is folded into one candle appended to history; an empty buffer
appends the flat candle built from `last`.  The buffer is cleared in both
cases. -/
def PriceHistory.process_buffer (s : PriceHistory) : PriceHistory :=
  match s.buffer with
  | [] =>
    { s with history := s.history ++ [⟨s.last, s.last, s.last, s.last, 0⟩],
             buffer := [] }
  | (pv, pvol) :: rest =>
    match rest.foldl bufStep (pv, pv, pv, pvol) with
    | (hi, lo, cl, vol) =>
      { s with history := s.history ++ [⟨hi, lo, pv, cl, vol⟩], buffer := [] }

/-- Python negative indexing `l[-x]` for `x ≥ 1` (price.py line 72 uses
`self.history[-1 * x]` with `x` drawn from `CHANGE_INTERVALS`, so `x ≥ 1`
always); out-of-range indices yield `none` (an `IndexError`). -/
def pyNegIndex (l : List α) (x : ℕ) : Option α :=
  if x ≤ l.length then l.get? (l.length - x) else none

/-- The `indexes` list built by the loop of `PriceHistory.changes`
(price.py lines 64-69): each interval not exceeding the history length is
kept, a larger one repeats the previous entry (`indexes[i-1]`, i.e. the
last element appended so far; the `getLastD 0` default is unreachable in
every use, because the loop is only reached with `max_history ≥ 2` and the
first interval is `1`). -/
def clampIntervals (maxHistory : ℕ) : List ℕ :=
  CHANGE_INTERVALS.foldl
    (fun acc val => acc ++ [if val ≤ maxHistory then val else acc.getLastD 0]) []

/-- Denotation of a Python comprehension whose body may raise: elements
are evaluated left to right and the first exception aborts the whole
expression. -/
def exceptMap (f : α → Except PyErr β) : List α → Except PyErr (List β)
  | [] => .ok []
  | x :: xs =>
    match f x with
    | .error e => .error e
    | .ok y =>
      match exceptMap f xs with
      | .error e => .error e
      | .ok ys => .ok (y :: ys)

/-- The body of the tuple comprehension of `PriceHistory.changes`
(price.py line 72): `(self.last - self.history[-1 * x][3]) * 100 /
self.history[-1 * x][3]`.  Python raises `ZeroDivisionError` on a zero
close price and `IndexError` on an out-of-range index. -/
def changeAt (s : PriceHistory) (x : ℕ) : Except PyErr ℚ :=
  match pyNegIndex s.history x with
  | none => .error .indexError
  | some c =>
    if c.close = 0 then .error .zeroDivisionError
    else .ok ((s.last - c.close) * 100 / c.close)

/-- Property `PriceHistory.changes` (price.py lines 51-72).  With fewer than two
candles it returns all zeros; otherwise it evaluates the percent-change
formula over the clamped intervals. -/
def PriceHistory.changes (s : PriceHistory) : Except PyErr (List ℚ) :=
  let maxHistory := s.history.length
  if maxHistory < 2 then .ok (CHANGE_INTERVALS.map fun _ => (0 : ℚ))
  else exceptMap (changeAt s) (clampIntervals maxHistory)

/-- Method `PriceHistory.add` (price.py lines 39-49): unconditionally sets
`last = price` and appends `(price, volume)` to the buffer, then evaluates
`str(self)` for the log line.  `__str__` (lines 103-126) formats
`self.changes`, which is the only failure source in it; a
`ZeroDivisionError` raised there propagates after the mutation has
happened. -/
def PriceHistory.add (s : PriceHistory) (price volume : ℚ) :
    Option PyErr × PriceHistory :=
  let s' := { s with last := price, buffer := s.buffer ++ [(price, volume)] }
  match s'.changes with
  | .error e => (some e, s')
  | .ok _ => (none, s')

/-- A Python value, as far as the embedded code inspects values
dynamically: `PriceTracker.add` checks `type(ticker_label)` against the
string types and `isinstance(price, float)` / `isinstance(volume, float)`
(price.py lines 153-169), and `handle_generic_event` checks
`isinstance(event, str)` (event.py line 105). -/
inductive PyVal where
  | str (s : String)
  | float (q : ℚ)
  | int (n : ℤ)
  | pynone
  | list (l : List String)
deriving DecidableEq

/-- Python `dict` lookup on an insertion-ordered association list. -/
def dictFind (d : List (String × α)) (k : String) : Option α :=
  match d with
  | [] => none
  | (k', v) :: rest => if k' = k then some v else dictFind rest k

/-- Python `d[k] = v`: replaces the value in place if the key exists,
otherwise appends the new binding (dicts preserve insertion order). -/
def dictSet (d : List (String × α)) (k : String) (v : α) : List (String × α) :=
  match d with
  | [] => [(k, v)]
  | (k', v') :: rest =>
    if k' = k then (k, v) :: rest else (k', v') :: dictSet rest k v

/-- Python `k in d`. -/
def dictContains (d : List (String × α)) (k : String) : Bool :=
  (dictFind d k).isSome

/-- Python `del d[k]`: raises `KeyError` when the key is absent. -/
def dictDel (d : List (String × α)) (k : String) :
    Except PyErr (List (String × α)) :=
  match d with
  | [] => .error .keyError
  | (k', v) :: rest =>
    if k' = k then .ok rest
    else
      match dictDel rest k with
      | .error e => .error e
      | .ok rest' => .ok ((k', v) :: rest')

/-- The state of a `PriceTracker` (price.py lines 129-142): the
`tickers` dict mapping the raw label to its `PriceHistory`.  The event
observers and the timer task are external effects, modelled separately. -/
structure PriceTracker where
  tickers : List (String × PriceHistory)
deriving DecidableEq

/-- Constructor `PriceTracker.__init__` (price.py lines 134-142). -/
def PriceTracker.init : PriceTracker := ⟨[]⟩

/-- Method `PriceTracker.add` (price.py lines 144-175).  The three type guards
raise `TypeError` before any mutation; then the series is created lazily
under the *raw* label and `PriceHistory.add` runs.  The trailing
`self.fire(...)` re-evaluates `str(...)` of the just-updated series, which
yields the same result as the evaluation inside `PriceHistory.add`, and
observer exceptions are absorbed into deferreds by `ObservableMixin.fire`,
so no further synchronous failure arises. -/
def PriceTracker.add (tr : PriceTracker) (ticker_label price volume : PyVal) :
    Option PyErr × PriceTracker :=
  match ticker_label, price, volume with
  | .str label, .float p, .float v =>
    let tickers0 :=
      if dictContains tr.tickers label then tr.tickers
      else tr.tickers ++ [(label, PriceHistory.init label)]
    let ph := (dictFind tickers0 label).getD (PriceHistory.init label)
    let res := ph.add p v
    (res.1, ⟨dictSet tickers0 label res.2⟩)
  | _, _, _ => (some .typeError, tr)

/-- The per-source-candle expansion of `PriceTracker.add_all` (price.py
lines 198-209): `dups` copies of the source candle, every copy's volume
divided by `dups` and its close forced to the source open, then the last
copy's close restored to the source's true close
(`duplicated[duplications - 1][3] = p_close`). -/
def expandCandle (dups : ℕ) (p : Candle) : List Candle :=
  (List.replicate dups { p with close := p.opn, volume := p.volume / dups }).set
    (dups - 1) { p with volume := p.volume / dups }

/-- The `for p in prices` loop of `PriceTracker.add_all`: with
`duplications = 0` the write `duplicated[-1][3]` raises `IndexError` at
the first source candle; otherwise each expansion extends `price_points`. -/
def expandAll (dups : ℕ) : List Candle → Except PyErr (List Candle)
  | [] => .ok []
  | p :: rest =>
    if dups = 0 then .error .indexError
    else
      match expandAll dups rest with
      | .error e => .error e
      | .ok pts => .ok (expandCandle dups p ++ pts)

/-- The body of `PriceTracker.add_all` after the lazy series creation
(price.py lines 192-215), with the looked-up series `ph` and the computed
`duplications` passed explicitly: builds `price_points`, wholesale-replaces
`history`, then sets `last = price_points[-1][3]` — an `IndexError` on an
empty input *after* the history has been replaced.  The final
`self.log.info(str(ph))` evaluates `changes`, whose `ZeroDivisionError`
(if any) propagates after all mutations. -/
def add_all_core (tickers0 : List (String × PriceHistory))
    (ph : PriceHistory) (label : String) (prices : List Candle)
    (dups : ℕ) : Option PyErr × PriceTracker :=
  match expandAll dups prices with
  | .error e => (some e, ⟨tickers0⟩)
  | .ok pts =>
    let ph1 := { ph with history := pts }
    match pts.getLast? with
    | none => (some .indexError, ⟨dictSet tickers0 label ph1⟩)
    | some c =>
      let ph2 := { ph1 with last := c.close }
      match ph2.changes with
      | .error e => (some e, ⟨dictSet tickers0 label ph2⟩)
      | .ok _ => (none, ⟨dictSet tickers0 label ph2⟩)

/-- Method `PriceTracker.add_all` (price.py lines 177-215): lazy series creation,
`duplications = int(interval / PRICE_HISTORY_RESOLUTION)` (truncating
division, no validation of the interval or the input), then the core
expansion. -/
def PriceTracker.add_all (tr : PriceTracker) (label : String)
    (prices : List Candle) (interval : ℕ) : Option PyErr × PriceTracker :=
  let tickers0 :=
    if dictContains tr.tickers label then tr.tickers
    else tr.tickers ++ [(label, PriceHistory.init label)]
  add_all_core tickers0 ((dictFind tickers0 label).getD (PriceHistory.init label))
    label prices (interval / PRICE_HISTORY_RESOLUTION)

/-- Method `PriceTracker.get` (price.py lines 217-227): lazy creation, returns
the series together with the updated tracker. -/
def PriceTracker.get (tr : PriceTracker) (label : String) :
    PriceTracker × PriceHistory :=
  let tickers0 :=
    if dictContains tr.tickers label then tr.tickers
    else tr.tickers ++ [(label, PriceHistory.init label)]
  (⟨tickers0⟩, (dictFind tickers0 label).getD (PriceHistory.init label))

/-- Denotation of the `for ticker in self.tickers.values():
ticker.process_buffer()` loop of `PriceTracker.process_buffers` (price.py
lines 273-274) when the per-series materialization step may raise: the
loop body runs left to right, and an exception aborts the loop
immediately, leaving the current and all later series untouched.  The
loop contains no `try`/`except`. -/
def flushSweep (flush : PriceHistory → Except PyErr PriceHistory) :
    List (String × PriceHistory) →
    Option PyErr × List (String × PriceHistory)
  | [] => (none, [])
  | (k, s) :: rest =>
    match flush s with
    | .error e => (some e, (k, s) :: rest)
    | .ok s' =>
      let res := flushSweep flush rest
      (res.1, (k, s') :: res.2)

/-- Method `PriceTracker.process_buffers` (price.py lines 262-280): sweeps every
registered series with `PriceHistory.process_buffer` (a total function,
wrapped in `Except.ok`).  The surrounding `fire` calls dispatch
asynchronously and are modelled separately. -/
def PriceTracker.process_buffers (tr : PriceTracker) :
    Option PyErr × PriceTracker :=
  let res := flushSweep (fun s => .ok s.process_buffer) tr.tickers
  (res.1, ⟨res.2⟩)

/-- An event payload dict, as built by `EventDispatcher` (event.py). -/
abbrev Payload := List (String × PyVal)

/-- Function `create_envelope` (message.py lines 11-24): stamps the timestamp
(`now`, seconds since epoch, passed explicitly here) and defaults the
`event` and `message` fields. -/
def create_envelope (now : ℚ) (p : Payload) : Payload :=
  let p1 := dictSet p "timestamp" (.float now)
  let p2 := if dictContains p1 "event" then p1
            else dictSet p1 "event" (.str "cs.unknown")
  if dictContains p2 "message" then p2 else dictSet p2 "message" .pynone

/-- Model of Python `repr` for the values of `PyVal`, used only to fill
the `details` field of generic events (event.py line 110); no verified
property depends on its exact output. -/
def pyRepr : PyVal → String
  | .str s => "'" ++ s ++ "'"
  | .float q => toString q
  | .int n => toString n
  | .pynone => "None"
  | .list l => "[" ++ String.intercalate ", " l ++ "]"

/-- Method `EventDispatcher.handle_generic_event` (event.py lines 93-112)
composed with `_handle_event` (lines 54-65): reads `event_label` with
default `cs.unknown`, stores it under `event`, then *unconditionally*
executes `del kwargs['event_label']` (a `KeyError` when the label was
never passed), then rejects non-string labels with `ValueError`
(`InvalidValue`), then attaches `details` for positional arguments and
broadcasts exactly one enveloped payload.  The result pairs the raised
exception (if any) with the list of broadcast payloads. -/
def handle_generic_event (now : ℚ) (args : List PyVal) (kwargs : Payload) :
    Option PyErr × List Payload :=
  let event := (dictFind kwargs "event_label").getD (.str "cs.unknown")
  let kwargs1 := dictSet kwargs "event" event
  match dictDel kwargs1 "event_label" with
  | .error e => (some e, [])
  | .ok kwargs2 =>
    match event with
    | .str _ =>
      let kwargs3 :=
        if args.isEmpty then kwargs2
        else dictSet kwargs2 "details" (.list (args.map pyRepr))
      (none, [create_envelope now kwargs3])
    | _ => (some .valueError, [])

/-- The deepest listed change horizon that the available history length
still covers: the largest element of `CHANGE_INTERVALS` not exceeding `m`
(and `1`, the smallest listed horizon, when even that is not covered). -/
def deepestAvail (m : ℕ) : ℕ :=
  if 2880 ≤ m then 2880
  else if 1440 ≤ m then 1440
  else if 720 ≤ m then 720
  else if 360 ≤ m then 360
  else if 60 ≤ m then 60
  else if 15 ≤ m then 15
  else if 5 ≤ m then 5
  else 1

/-- The close price `x` flush intervals back, `history[-x][3]`, as a plain
rational (`0` when out of range — only used where the index is proved in
range). -/
def closeBack (s : PriceHistory) (x : ℕ) : ℚ :=
  ((pyNegIndex s.history x).map Candle.close).getD 0

/-- The series for `BTC_ETH` after ingesting the spec scenario's two ticks
through the tracker. -/
def c1scenario : PriceHistory :=
  (dictFind (((PriceTracker.init.add (.str "BTC_ETH") (.float 100)
      (.float 2)).2.add (.str "BTC_ETH") (.float 110) (.float 3)).2).tickers
    "BTC_ETH").getD (PriceHistory.init "BTC_ETH")

/-- A series with two candles whose closes are non-zero, used to witness
the change-calculator theorem. -/
def c2series : PriceHistory :=
  ⟨"X", [⟨1, 1, 1, 2, 0⟩, ⟨1, 1, 1, 4, 0⟩], 5, []⟩

/-- A series whose referenced close price is zero: two candles with close
`0.0`. -/
def c2zeroSeries : PriceHistory :=
  ⟨"X", [⟨1, 1, 1, 0, 0⟩, ⟨1, 1, 1, 0, 0⟩], 1, []⟩

/-- A series whose most recent candle closed at `0.0` (the close that
horizon 1 references). -/
def c5zeroSeries : PriceHistory :=
  ⟨"ETH", [⟨2, 1, 1, 2, 1⟩, ⟨3, 0, 1, 0, 1⟩], 5, []⟩

/-- A series with a zero close one interval back and a nonzero close two
intervals back, used to witness the zero-division theorem. -/
def c5witnessSeries : PriceHistory :=
  ⟨"ETH", [⟨1, 1, 1, 1, 1⟩, ⟨1, 1, 1, 0, 1⟩], 3, []⟩

/-! ## Helper lemmas -/

section FoldlLemmas

variable {α : Type _} [LinearOrder α]

theorem foldl_max_mem (l : List α) (a : α) : l.foldl max a ∈ a :: l := by
  induction l generalizing a with
  | nil => simp
  | cons x xs ih =>
    simp only [List.foldl_cons]
    rcases List.mem_cons.mp (ih (max a x)) with h | h
    · rw [h]
      rcases max_choice a x with hm | hm <;> simp [hm]
    · simp [List.mem_cons, h]

theorem le_foldl_max (l : List α) (a : α) : ∀ x ∈ a :: l, x ≤ l.foldl max a := by
  induction l generalizing a with
  | nil => intro x hx; simp at hx; simp [hx]
  | cons y ys ih =>
    intro x hx
    simp only [List.foldl_cons]
    have ha : a ≤ List.foldl max (max a y) ys :=
      le_trans (le_max_left a y) (ih _ _ (by simp))
    have hy : y ≤ List.foldl max (max a y) ys :=
      le_trans (le_max_right a y) (ih _ _ (by simp))
    rcases List.mem_cons.mp hx with h | h
    · subst h; exact ha
    · rcases List.mem_cons.mp h with h' | h'
      · subst h'; exact hy
      · exact ih (max a y) x (by simp [h'])

theorem foldl_max_le (l : List α) (a b : α) (ha : a ≤ b)
    (hl : ∀ x ∈ l, x ≤ b) : l.foldl max a ≤ b := by
  rcases List.mem_cons.mp (foldl_max_mem l a) with h | h
  · simpa [h] using ha
  · exact hl _ h

theorem foldl_min_mem (l : List α) (a : α) : l.foldl min a ∈ a :: l := by
  induction l generalizing a with
  | nil => simp
  | cons x xs ih =>
    simp only [List.foldl_cons]
    rcases List.mem_cons.mp (ih (min a x)) with h | h
    · rw [h]
      rcases min_choice a x with hm | hm <;> simp [hm]
    · simp [List.mem_cons, h]

theorem foldl_min_le (l : List α) (a : α) : ∀ x ∈ a :: l, l.foldl min a ≤ x := by
  induction l generalizing a with
  | nil => intro x hx; simp at hx; simp [hx]
  | cons y ys ih =>
    intro x hx
    simp only [List.foldl_cons]
    have ha : List.foldl min (min a y) ys ≤ a :=
      le_trans (ih _ _ (by simp)) (min_le_left a y)
    have hy : List.foldl min (min a y) ys ≤ y :=
      le_trans (ih _ _ (by simp)) (min_le_right a y)
    rcases List.mem_cons.mp hx with h | h
    · subst h; exact ha
    · rcases List.mem_cons.mp h with h' | h'
      · subst h'; exact hy
      · exact ih (min a y) x (by simp [h'])

end FoldlLemmas

section ExceptMapLemmas

variable {α β : Type _}

theorem exceptMap_ok_of_forall (f : α → Except PyErr β) (g : α → β)
    (l : List α) (h : ∀ x ∈ l, f x = .ok (g x)) :
    exceptMap f l = .ok (l.map g) := by
  induction l with
  | nil => rfl
  | cons x xs ih =>
    simp only [exceptMap, h x (by simp), ih fun y hy => h y (by simp [hy]),
      List.map_cons]

theorem exceptMap_exists_ok (f : α → Except PyErr β) (l : List α)
    (h : ∀ x ∈ l, ∃ y, f x = .ok y) :
    ∃ out, exceptMap f l = .ok out ∧ out.length = l.length := by
  induction l with
  | nil => exact ⟨[], rfl, rfl⟩
  | cons x xs ih =>
    obtain ⟨y, hy⟩ := h x (by simp)
    obtain ⟨out, hout, hlen⟩ := ih fun z hz => h z (by simp [hz])
    exact ⟨y :: out, by simp [exceptMap, hy, hout], by simp [hlen]⟩

theorem exceptMap_error_src (f : α → Except PyErr β) (l : List α) (e : PyErr)
    (h : exceptMap f l = .error e) : ∃ x ∈ l, f x = .error e := by
  induction l with
  | nil => simp [exceptMap] at h
  | cons x xs ih =>
    simp only [exceptMap] at h
    cases hx : f x with
    | error e' =>
      simp only [hx] at h
      cases h
      exact ⟨x, by simp, hx⟩
    | ok y =>
      simp only [hx] at h
      cases hxs : exceptMap f xs with
      | error e' =>
        simp only [hxs] at h
        cases h
        obtain ⟨z, hz, hfz⟩ := ih hxs
        exact ⟨z, by simp [hz], hfz⟩
      | ok out => simp [hxs] at h

theorem exceptMap_is_error (f : α → Except PyErr β) (l : List α) (x : α)
    (hx : x ∈ l) (e : PyErr) (he : f x = .error e) :
    ∃ e', exceptMap f l = .error e' := by
  induction l with
  | nil => simp at hx
  | cons y ys ih =>
    rcases List.mem_cons.mp hx with h | h
    · subst h
      exact ⟨e, by simp [exceptMap, he]⟩
    · cases hy : f y with
      | error e' => exact ⟨e', by simp [exceptMap, hy]⟩
      | ok z =>
        obtain ⟨e', he'⟩ := ih h
        exact ⟨e', by simp [exceptMap, hy, he']⟩

end ExceptMapLemmas

section DictLemmas

variable {α : Type _}

theorem dictFind_dictSet_self (d : List (String × α)) (k : String) (v : α) :
    dictFind (dictSet d k v) k = some v := by
  induction d with
  | nil => simp [dictSet, dictFind]
  | cons kv rest ih =>
    by_cases h : kv.1 = k
    · simp [dictSet, dictFind, h]
    · simp [dictSet, dictFind, h, ih]

theorem dictFind_dictSet_other (d : List (String × α)) (k k' : String) (v : α)
    (h : k ≠ k') : dictFind (dictSet d k v) k' = dictFind d k' := by
  induction d with
  | nil => simp [dictSet, dictFind, h]
  | cons kv rest ih =>
    by_cases hk : kv.1 = k
    · simp [dictSet, dictFind, hk, h]
    · simp only [dictSet, hk, if_false, dictFind]
      by_cases hk' : kv.1 = k' <;> simp [hk', ih]

theorem dictFind_append_self (d : List (String × α)) (k : String) (v : α)
    (h : dictFind d k = none) : dictFind (d ++ [(k, v)]) k = some v := by
  induction d with
  | nil => simp [dictFind]
  | cons kv rest ih =>
    simp only [dictFind] at h ⊢
    by_cases hk : kv.1 = k
    · simp [hk] at h
    · simp only [hk, if_false] at h ⊢
      exact ih h

theorem dictSet_keys (d : List (String × α)) (k : String) (v : α)
    (h : dictFind d k ≠ none) :
    (dictSet d k v).map Prod.fst = d.map Prod.fst := by
  induction d with
  | nil => simp [dictFind] at h
  | cons kv rest ih =>
    simp only [dictFind] at h
    by_cases hk : kv.1 = k
    · simp [dictSet, hk]
    · simp only [hk, if_false] at h
      simp [dictSet, hk, ih h]

end DictLemmas

/-- The loop of `process_buffer` computes the running maximum, minimum,
last value and volume sum: the `elif` in the source is sound because a new
low is never also a new high (the state keeps `lo ≤ hi`). -/
theorem bufStep_foldl (rest : List (ℚ × ℚ)) :
    ∀ hi lo cl vol : ℚ, lo ≤ hi →
      rest.foldl bufStep (hi, lo, cl, vol)
        = ((rest.map Prod.fst).foldl max hi,
           (rest.map Prod.fst).foldl min lo,
           (rest.map Prod.fst).getLastD cl,
           vol + (rest.map Prod.snd).sum) := by
  induction rest with
  | nil => intro hi lo cl vol _; simp
  | cons x xs ih =>
    intro hi lo cl vol h
    obtain ⟨val, v⟩ := x
    have hstep : bufStep (hi, lo, cl, vol) (val, v)
        = (max hi val, min lo val, val, vol + v) := by
      by_cases h1 : val < lo
      · have hvh : val ≤ hi := le_of_lt (lt_of_lt_of_le h1 h)
        simp [bufStep, h1, max_eq_left hvh, min_eq_right (le_of_lt h1)]
      · by_cases h2 : hi < val
        · simp [bufStep, h1, h2, max_eq_right (le_of_lt h2),
            min_eq_left (not_lt.mp h1)]
        · simp [bufStep, h1, h2, max_eq_left (not_lt.mp h2),
            min_eq_left (not_lt.mp h1)]
    have hmm : min lo val ≤ max hi val :=
      le_trans (min_le_left lo val) (le_trans h (le_max_left hi val))
    rw [List.foldl_cons, hstep, ih _ _ _ _ hmm]
    simp only [List.map_cons, List.foldl_cons, List.getLastD_cons,
      List.sum_cons, add_assoc]

/-- C1, general part: a flush of a non-empty buffer appends exactly one
candle whose open is the first buffered price, close the last buffered
price, high/low the extrema and volume the sum of buffered volumes, and
clears the buffer. -/
theorem process_buffer_materializes_candle (s : PriceHistory) (pv pvol : ℚ)
    (rest : List (ℚ × ℚ)) (hbuf : s.buffer = (pv, pvol) :: rest) :
    ∃ c : Candle,
      s.process_buffer.history = s.history ++ [c]
      ∧ s.process_buffer.buffer = []
      ∧ c.opn = pv
      ∧ c.close = (s.buffer.map Prod.fst).getLastD 0
      ∧ c.high ∈ s.buffer.map Prod.fst
      ∧ (∀ x ∈ s.buffer.map Prod.fst, x ≤ c.high)
      ∧ c.low ∈ s.buffer.map Prod.fst
      ∧ (∀ x ∈ s.buffer.map Prod.fst, c.low ≤ x)
      ∧ c.volume = (s.buffer.map Prod.snd).sum := by
  obtain ⟨tick, hist, lst, buf⟩ := s
  simp only at hbuf
  subst hbuf
  refine ⟨⟨(rest.map Prod.fst).foldl max pv, (rest.map Prod.fst).foldl min pv,
    pv, (rest.map Prod.fst).getLastD pv, pvol + (rest.map Prod.snd).sum⟩,
    ?_, ?_, rfl, ?_, ?_, ?_, ?_, ?_, ?_⟩
  · simp [PriceHistory.process_buffer, bufStep_foldl rest pv pv pv pvol le_rfl]
  · simp [PriceHistory.process_buffer, bufStep_foldl rest pv pv pv pvol le_rfl]
  · simp only [List.map_cons, List.getLastD_cons]
  · simpa using foldl_max_mem (rest.map Prod.fst) pv
  · simpa using le_foldl_max (rest.map Prod.fst) pv
  · simpa using foldl_min_mem (rest.map Prod.fst) pv
  · simpa using foldl_min_le (rest.map Prod.fst) pv
  · simp

/-- C1, witness: the scenario of the claim.  Ingesting
`("BTC_ETH", 100.0, 2.0)` then `("BTC_ETH", 110.0, 3.0)` and flushing once
leaves history equal to the single candle `(110.0, 100.0, 100.0, 110.0,
5.0)`. -/
theorem process_buffer_materializes_candle_witness :
    c1scenario.buffer = (100, 2) :: [(110, 3)]
    ∧ (∃ c : Candle,
        c1scenario.process_buffer.history = c1scenario.history ++ [c]
        ∧ c1scenario.process_buffer.buffer = []
        ∧ c.opn = 100
        ∧ c.close = (c1scenario.buffer.map Prod.fst).getLastD 0
        ∧ c.high ∈ c1scenario.buffer.map Prod.fst
        ∧ (∀ x ∈ c1scenario.buffer.map Prod.fst, x ≤ c.high)
        ∧ c.low ∈ c1scenario.buffer.map Prod.fst
        ∧ (∀ x ∈ c1scenario.buffer.map Prod.fst, c.low ≤ x)
        ∧ c.volume = (c1scenario.buffer.map Prod.snd).sum)
    ∧ c1scenario.process_buffer.history = [⟨110, 100, 100, 110, 5⟩] :=
  ⟨by norm_num [c1scenario, PriceTracker.init, PriceTracker.add,
      PriceHistory.init, PriceHistory.add, PriceHistory.changes, dictContains,
      dictFind, dictSet, CHANGE_INTERVALS],
   process_buffer_materializes_candle c1scenario 100 2 [(110, 3)]
     (by norm_num [c1scenario, PriceTracker.init, PriceTracker.add,
       PriceHistory.init, PriceHistory.add, PriceHistory.changes, dictContains,
       dictFind, dictSet, CHANGE_INTERVALS]),
   by norm_num [c1scenario, PriceTracker.init, PriceTracker.add,
      PriceHistory.init, PriceHistory.add, PriceHistory.changes, dictContains,
      dictFind, dictSet, CHANGE_INTERVALS, PriceHistory.process_buffer,
      bufStep]⟩

/-- The mutation of `PriceHistory.add` happens in both the normal and the
raising branch: the post-call state always has `last = price` and the tick
appended. -/
theorem PriceHistory.add_snd (s : PriceHistory) (p v : ℚ) :
    (s.add p v).2 = { s with last := p, buffer := s.buffer ++ [(p, v)] } := by
  unfold PriceHistory.add
  cases hc : ({ s with last := p, buffer := s.buffer ++ [(p, v)] } :
      PriceHistory).changes <;> simp [hc]

/-- Helper `changeAt` only ever raises `IndexError` or `ZeroDivisionError`. -/
theorem changeAt_error_shape (s : PriceHistory) (x : ℕ) (e : PyErr)
    (h : changeAt s x = .error e) :
    e = .indexError ∨ e = .zeroDivisionError := by
  unfold changeAt at h
  cases hp : pyNegIndex s.history x with
  | none => simp [hp] at h; exact Or.inl h.symm
  | some c =>
    simp only [hp] at h
    by_cases hc : c.close = 0
    · simp [hc] at h; exact Or.inr h.symm
    · simp [hc] at h

/-- Property `PriceHistory.changes` only ever raises `IndexError` or
`ZeroDivisionError`; in particular it never raises the `TypeError` /
`ValueError` kinds the spec calls `InvalidValue`. -/
theorem changes_error_shape (s : PriceHistory) (e : PyErr)
    (h : s.changes = .error e) :
    e = .indexError ∨ e = .zeroDivisionError := by
  unfold PriceHistory.changes at h
  by_cases hl : s.history.length < 2
  · simp [hl] at h
  · simp only [hl, if_false] at h
    obtain ⟨x, _, hx⟩ := exceptMap_error_src _ _ _ h
    exact changeAt_error_shape s x e hx

/-- C10: a freshly created series (never ticked) has `last = 1.0`, a flush
of it appends the flat candle `(1.0, 1.0, 1.0, 1.0, 0.0)`, and its percent
changes (empty history) are all `0.0`, computed against `last = 1.0`.
Lazy creation through `PriceTracker.get` yields exactly this fresh
series. -/
theorem fresh_series_flat_candle (label : String) :
    (PriceHistory.init label).last = 1
    ∧ (PriceTracker.init.get label).2 = PriceHistory.init label
    ∧ (PriceHistory.init label).process_buffer.history = [⟨1, 1, 1, 1, 0⟩]
    ∧ (PriceHistory.init label).changes = .ok (List.replicate 8 (0 : ℚ)) := by
  refine ⟨rfl, ?_, ?_, ?_⟩
  · simp [PriceTracker.get, PriceTracker.init, dictContains, dictFind]
  · simp [PriceHistory.init, PriceHistory.process_buffer]
  · simp [PriceHistory.init, PriceHistory.changes, CHANGE_INTERVALS]

/-- C4, counterexample: a tick with negative price `-1.0` is accepted by
`PriceTracker.add` — no exception at all — and the tick is appended to the
buffer with `last` updated, contradicting the claimed `InvalidValue`
rejection of negative values. -/
theorem add_accepts_negative_price :
    PriceTracker.init.add (.str "BTC_ETH") (.float (-1)) (.float 1)
      = (none, ⟨[("BTC_ETH", ⟨"BTC_ETH", [], -1, [(-1, 1)]⟩)]⟩) := by
  norm_num [PriceTracker.init, PriceTracker.add, PriceHistory.init,
    PriceHistory.add, PriceHistory.changes, dictContains, dictFind, dictSet,
    CHANGE_INTERVALS]
  decide

/-- The raising path of `PriceHistory.add` never yields the
`TypeError`/`ValueError` kinds. -/
theorem PriceHistory.add_fst_shape (s : PriceHistory) (p v : ℚ) :
    (s.add p v).1 ≠ some .typeError ∧ (s.add p v).1 ≠ some .valueError := by
  unfold PriceHistory.add
  cases hc : ({ s with last := p, buffer := s.buffer ++ [(p, v)] } :
      PriceHistory).changes with
  | error e =>
    rcases changes_error_shape _ e hc with h | h <;> subst h <;> simp [hc]
  | ok out => simp [hc]

/-- C4, amended: `PriceTracker.add` performs only Python type checks.  For
a string label and float price/volume — of any sign and magnitude — the
value is never rejected: no `TypeError`/`ValueError` is possible, the tick
is appended to the series' buffer and `last` is set to the price. -/
theorem add_only_type_checks (tr : PriceTracker) (label : String) (p v : ℚ) :
    (tr.add (.str label) (.float p) (.float v)).1 ≠ some .typeError
    ∧ (tr.add (.str label) (.float p) (.float v)).1 ≠ some .valueError
    ∧ ∃ ph, dictFind (tr.add (.str label) (.float p) (.float v)).2.tickers
          label = some ph
        ∧ ph.last = p ∧ ph.buffer.getLast? = some (p, v) := by
  have h1 := PriceHistory.add_fst_shape
    ((dictFind (if dictContains tr.tickers label then tr.tickers
      else tr.tickers ++ [(label, PriceHistory.init label)]) label).getD
      (PriceHistory.init label)) p v
  have h2 := PriceHistory.add_snd
    ((dictFind (if dictContains tr.tickers label then tr.tickers
      else tr.tickers ++ [(label, PriceHistory.init label)]) label).getD
      (PriceHistory.init label)) p v
  simp only [PriceTracker.add]
  exact ⟨h1.1, h1.2, _, dictFind_dictSet_self _ _ _,
    by rw [h2], by rw [h2]; simp⟩

/-- C8, counterexample: ingesting under `btc_eth` and then under
`BTC_ETH` creates two distinct series — the tracker keys its dict by the
raw label, so case variants do not identify the same series, and the
stored key of the first series is the non-uppercased `btc_eth`. -/
theorem add_case_variants_distinct :
    (((PriceTracker.init.add (.str "btc_eth") (.float 1) (.float 1)).2.add
        (.str "BTC_ETH") (.float 2) (.float 1)).2).tickers.map Prod.fst
      = ["btc_eth", "BTC_ETH"]
    ∧ (((PriceTracker.init.add (.str "btc_eth") (.float 1) (.float 1)).2.add
        (.str "BTC_ETH") (.float 2) (.float 1)).2).tickers.length = 2 := by
  constructor <;>
    simp [PriceTracker.init, PriceTracker.add, PriceHistory.init,
      PriceHistory.add, PriceHistory.changes, dictContains, dictFind, dictSet,
      CHANGE_INTERVALS]

/-- C8, amended: the engine keys its series dict by the raw label — only
the series' display field `ticker` is uppercased — so any two distinct
labels (case variants included) create two separate series rather than
updating one. -/
theorem add_raw_label_key (l1 l2 : String) (p1 v1 p2 v2 : ℚ)
    (hne : l1 ≠ l2) :
    (((PriceTracker.init.add (.str l1) (.float p1) (.float v1)).2.add
        (.str l2) (.float p2) (.float v2)).2).tickers.map Prod.fst = [l1, l2]
    ∧ ∃ ph, dictFind (((PriceTracker.init.add (.str l1) (.float p1)
        (.float v1)).2.add (.str l2) (.float p2) (.float v2)).2).tickers l1
          = some ph
        ∧ ph.ticker = pyUpper l1 := by
  have step1 : (PriceTracker.init.add (.str l1) (.float p1) (.float v1)).2
      = ⟨[(l1, ((PriceHistory.init l1).add p1 v1).2)]⟩ := by
    simp [PriceTracker.init, PriceTracker.add, dictContains, dictFind, dictSet]
  rw [step1]
  have hfind : dictFind [(l1, ((PriceHistory.init l1).add p1 v1).2)] l2
      = none := by
    simp [dictFind, hne]
  have step2 : (PriceTracker.add ⟨[(l1, ((PriceHistory.init l1).add p1 v1).2)]⟩
      (.str l2) (.float p2) (.float v2)).2
      = ⟨[(l1, ((PriceHistory.init l1).add p1 v1).2),
          (l2, ((PriceHistory.init l2).add p2 v2).2)]⟩ := by
    simp [PriceTracker.add, dictContains, hfind, dictFind, dictSet, hne]
  rw [step2]
  refine ⟨by simp, ((PriceHistory.init l1).add p1 v1).2, by simp [dictFind], ?_⟩
  rw [PriceHistory.add_snd]
  rfl

/-- C8, witness for the amended theorem at the case-variant labels of the
counterexample. -/
theorem add_raw_label_key_witness :
    ("btc_eth" : String) ≠ "BTC_ETH"
    ∧ ((((PriceTracker.init.add (.str "btc_eth") (.float 1) (.float 1)).2.add
          (.str "BTC_ETH") (.float 2) (.float 1)).2).tickers.map Prod.fst
        = ["btc_eth", "BTC_ETH"]
      ∧ ∃ ph, dictFind (((PriceTracker.init.add (.str "btc_eth") (.float 1)
          (.float 1)).2.add (.str "BTC_ETH") (.float 2)
          (.float 1)).2).tickers "btc_eth" = some ph
          ∧ ph.ticker = pyUpper "btc_eth") :=
  ⟨by decide, add_raw_label_key "btc_eth" "BTC_ETH" 1 1 2 1 (by decide)⟩

/-- C6, amended: `process_buffers`, as written, always runs to completion
and flushes every registered series — because `process_buffer` is total —
and raises nothing. -/
theorem process_buffers_total (tr : PriceTracker) :
    tr.process_buffers.1 = none
    ∧ tr.process_buffers.2.tickers
        = tr.tickers.map fun kv => (kv.1, kv.2.process_buffer) := by
  have h : ∀ l : List (String × PriceHistory),
      flushSweep (fun s => .ok s.process_buffer) l
        = (none, l.map fun kv => (kv.1, kv.2.process_buffer)) := by
    intro l
    induction l with
    | nil => rfl
    | cons kv rest ih =>
      obtain ⟨k, s⟩ := kv
      simp [flushSweep, ih]
  simp [PriceTracker.process_buffers, h]

/-- C6, counterexample to the claimed catch-and-continue: the sweep loop
has no `try`/`except`, so a per-series materialization step that raises
(here: a hostile flush failing on the series labelled `BAD`) aborts the
sweep — the exception propagates and the remaining series (`GOOD`, with a
pending tick in its buffer) is left unflushed. -/
theorem flushSweep_aborts_on_error :
    flushSweep (fun s => if s.ticker = "BAD" then .error .valueError
        else .ok s.process_buffer)
      [("BAD", ⟨"BAD", [], 1, []⟩), ("GOOD", ⟨"GOOD", [], 1, [(2, 3)]⟩)]
      = (some .valueError,
         [("BAD", ⟨"BAD", [], 1, []⟩), ("GOOD", ⟨"GOOD", [], 1, [(2, 3)]⟩)]) := by
  simp [flushSweep]

/-- C9: evaluating `handle_generic_event` — without an event label the
unconditional `del kwargs['event_label']` raises `KeyError` and nothing is
broadcast (the claim's default-to-`cs.unknown` path is unreachable); a
non-string label raises `ValueError` as claimed; and a present string
label produces exactly one broadcast. -/
theorem handle_generic_event_eval :
    handle_generic_event 0 [] [("message", .str "hi")] = (some .keyError, [])
    ∧ handle_generic_event 0 [] [("event_label", .int 7)]
        = (some .valueError, [])
    ∧ (handle_generic_event 0 [] [("event_label", .str "cs.message")]).2.length
        = 1 := by
  refine ⟨?_, ?_, ?_⟩ <;>
    simp [handle_generic_event, dictFind, dictSet, dictDel, dictContains,
      create_envelope]

/-- Value `deepestAvail m` is really the deepest listed horizon available: it is
a listed horizon, it does not exceed `m`, and it dominates every listed
horizon that does not exceed `m`. -/
theorem deepestAvail_spec (m : ℕ) (h1 : 1 ≤ m) :
    deepestAvail m ∈ CHANGE_INTERVALS
    ∧ deepestAvail m ≤ m
    ∧ ∀ v ∈ CHANGE_INTERVALS, v ≤ m → v ≤ deepestAvail m := by
  unfold deepestAvail CHANGE_INTERVALS
  split_ifs <;> refine ⟨by simp, by omega, ?_⟩ <;> intro v hv <;>
    fin_cases hv <;> omega

/-- The `indexes` loop of `changes` clamps positionally: each horizon
within range is kept, each out-of-range horizon is replaced by the deepest
listed horizon available. -/
theorem clampIntervals_eq (m : ℕ) (h2 : 2 ≤ m) :
    clampIntervals m
      = CHANGE_INTERVALS.map fun v => if v ≤ m then v else deepestAvail m := by
  have h1 : 1 ≤ m := by omega
  by_cases h5 : 5 ≤ m <;> by_cases h15 : 15 ≤ m <;> by_cases h60 : 60 ≤ m <;>
    by_cases h360 : 360 ≤ m <;> by_cases h720 : 720 ≤ m <;>
    by_cases h1440 : 1440 ≤ m <;> by_cases h2880 : 2880 ≤ m <;>
    first
      | omega
      | simp [clampIntervals, CHANGE_INTERVALS, deepestAvail, h1, h5, h15,
          h60, h360, h720, h1440, h2880]

theorem clampIntervals_length (m : ℕ) (h2 : 2 ≤ m) :
    (clampIntervals m).length = CHANGE_INTERVALS.length := by
  rw [clampIntervals_eq m h2, List.length_map]

/-- Every clamped index is a valid Python negative index into the
history. -/
theorem mem_clampIntervals (m : ℕ) (h2 : 2 ≤ m) (x : ℕ)
    (hx : x ∈ clampIntervals m) : 1 ≤ x ∧ x ≤ m := by
  rw [clampIntervals_eq m h2] at hx
  simp only [List.mem_map] at hx
  obtain ⟨v, hv, rfl⟩ := hx
  by_cases h : v ≤ m
  · have h1v : 1 ≤ v := by fin_cases hv <;> omega
    rw [if_pos h]
    exact ⟨h1v, h⟩
  · rw [if_neg h]
    obtain ⟨_, hle, _⟩ := deepestAvail_spec m (by omega)
    have h1d : 1 ≤ deepestAvail m := by unfold deepestAvail; split_ifs <;> omega
    exact ⟨h1d, hle⟩

/-- For a valid index, `changeAt` finds the referenced candle and is the
guarded percent-change formula on its close. -/
theorem changeAt_ok (s : PriceHistory) (x : ℕ) (hx1 : 1 ≤ x)
    (hx2 : x ≤ s.history.length) :
    ∃ c, pyNegIndex s.history x = some c ∧ c ∈ s.history
      ∧ changeAt s x = (if c.close = 0 then .error .zeroDivisionError
          else .ok ((s.last - c.close) * 100 / c.close))
      ∧ closeBack s x = c.close := by
  have hlt : s.history.length - x < s.history.length := by omega
  have hget : s.history.get? (s.history.length - x)
      = some (s.history.get ⟨s.history.length - x, hlt⟩) := List.get?_eq_get hlt
  refine ⟨s.history.get ⟨s.history.length - x, hlt⟩, ?_, List.get_mem _ _ _,
    ?_, ?_⟩
  · unfold pyNegIndex
    rw [if_pos hx2, hget]
  · unfold changeAt pyNegIndex
    rw [if_pos hx2, hget]
  · unfold closeBack pyNegIndex
    rw [if_pos hx2, hget]
    rfl

theorem changeAt_ne_indexError (s : PriceHistory) (x : ℕ) (hx1 : 1 ≤ x)
    (hx2 : x ≤ s.history.length) : changeAt s x ≠ .error .indexError := by
  obtain ⟨c, _, _, hch, _⟩ := changeAt_ok s x hx1 hx2
  rw [hch]
  split_ifs <;> simp

/-- When every close in history is non-zero, `changes` succeeds and
returns one value per configured horizon. -/
theorem changes_ok_of_nonzero (s : PriceHistory)
    (hz : ∀ c ∈ s.history, c.close ≠ 0) :
    ∃ out, s.changes = .ok out ∧ out.length = CHANGE_INTERVALS.length := by
  by_cases hl : s.history.length < 2
  · refine ⟨CHANGE_INTERVALS.map fun _ => (0 : ℚ), ?_, by simp⟩
    simp only [PriceHistory.changes]
    rw [if_pos hl]
  · have h2 : 2 ≤ s.history.length := by omega
    have hall : ∀ x ∈ clampIntervals s.history.length,
        ∃ y, changeAt s x = .ok y := by
      intro x hx
      obtain ⟨hx1, hx2⟩ := mem_clampIntervals _ h2 x hx
      obtain ⟨c, _, hcmem, hch, _⟩ := changeAt_ok s x hx1 hx2
      exact ⟨(s.last - c.close) * 100 / c.close,
        by rw [hch]; simp [hz c hcmem]⟩
    obtain ⟨out, hout, hlen⟩ := exceptMap_exists_ok _ _ hall
    refine ⟨out, ?_, by rw [hlen, clampIntervals_length _ h2]⟩
    simp only [PriceHistory.changes]
    rw [if_neg hl]
    exact hout

/-- C5, amended: when the close price referenced by a horizon is `0.0`,
`changes` raises `ZeroDivisionError` — nothing in the code guards the
division. -/
theorem changes_raises_on_zero_close (s : PriceHistory)
    (h2 : 2 ≤ s.history.length) (x : ℕ)
    (hx : x ∈ clampIntervals s.history.length)
    (hz : closeBack s x = 0) :
    s.changes = .error .zeroDivisionError := by
  obtain ⟨hx1, hx2⟩ := mem_clampIntervals _ h2 x hx
  obtain ⟨c, _, _, hch, hcb⟩ := changeAt_ok s x hx1 hx2
  have hcz : c.close = 0 := by rw [← hcb]; exact hz
  have herr : changeAt s x = .error .zeroDivisionError := by
    rw [hch]; simp [hcz]
  unfold PriceHistory.changes
  have hnl : ¬ s.history.length < 2 := by omega
  simp only [hnl, if_false]
  obtain ⟨e, he⟩ := exceptMap_is_error (changeAt s) _ x hx _ herr
  obtain ⟨y, hy, hey⟩ := exceptMap_error_src _ _ _ he
  obtain ⟨hy1, hy2⟩ := mem_clampIntervals _ h2 y hy
  rcases changeAt_error_shape s y e hey with h | h
  · exact absurd (h ▸ hey) (changeAt_ne_indexError s y hy1 hy2)
  · rw [he, h]

/-- C5, witness: a series whose latest candle closed at `0.0` makes
`changes` raise. -/
theorem changes_raises_on_zero_close_witness :
    2 ≤ c5witnessSeries.history.length
    ∧ 1 ∈ clampIntervals c5witnessSeries.history.length
    ∧ closeBack c5witnessSeries 1 = 0
    ∧ c5witnessSeries.changes = .error .zeroDivisionError :=
  ⟨by decide, by decide,
   by norm_num [closeBack, pyNegIndex, c5witnessSeries],
   changes_raises_on_zero_close c5witnessSeries (by decide) 1 (by decide)
     (by norm_num [closeBack, pyNegIndex, c5witnessSeries])⟩

/-- C5, counterexample to the claimed guard: on a concrete series whose
referenced close is `0.0` the property getter raises instead of reporting
`0.0`. -/
theorem changes_division_unguarded :
    c5zeroSeries.changes = .error .zeroDivisionError := by
  norm_num [c5zeroSeries, PriceHistory.changes, clampIntervals,
    CHANGE_INTERVALS, exceptMap, changeAt, pyNegIndex]

/-- C2, counterexample: on a history of two candles with close `0.0` the
calculator raises `ZeroDivisionError` — it does not return
`len(horizons)` values for *every* history. -/
theorem changes_zero_close_no_values :
    c2zeroSeries.changes = .error .zeroDivisionError := by
  norm_num [c2zeroSeries, PriceHistory.changes, clampIntervals,
    CHANGE_INTERVALS, exceptMap, changeAt, pyNegIndex]

/-- C2, amended: whenever no *referenced* close price is zero — i.e. the
close `closeBack s x` is non-zero for every clamped index `x` the
calculator actually reads — `changes` returns exactly one value per
configured horizon: all `0.0` for histories shorter than two candles;
otherwise the percent-change formula positionally over the clamped
horizons, where an out-of-range horizon is replaced by the deepest listed
horizon available (clamped, not skipped).  Unreferenced zero closes
deeper in the history are irrelevant. -/
theorem changes_clamped (s : PriceHistory) :
    (s.history.length < 2 →
      s.changes = .ok (List.replicate CHANGE_INTERVALS.length (0 : ℚ)))
    ∧ (2 ≤ s.history.length →
        (∀ x ∈ clampIntervals s.history.length, closeBack s x ≠ 0) →
        s.changes = .ok ((clampIntervals s.history.length).map fun x =>
          (s.last - closeBack s x) * 100 / closeBack s x)
        ∧ (clampIntervals s.history.length).length = CHANGE_INTERVALS.length
        ∧ clampIntervals s.history.length = CHANGE_INTERVALS.map fun v =>
            if v ≤ s.history.length then v
            else deepestAvail s.history.length) := by
  constructor
  · intro hl
    simp only [PriceHistory.changes]
    rw [if_pos hl]
    rfl
  · intro h2 hz
    have hnl : ¬ s.history.length < 2 := by omega
    refine ⟨?_, clampIntervals_length _ h2, clampIntervals_eq _ h2⟩
    simp only [PriceHistory.changes]
    rw [if_neg hnl]
    refine exceptMap_ok_of_forall (changeAt s)
      (fun x => (s.last - closeBack s x) * 100 / closeBack s x) _ ?_
    intro x hx
    obtain ⟨hx1, hx2⟩ := mem_clampIntervals _ h2 x hx
    obtain ⟨c, _, _, hch, hcb⟩ := changeAt_ok s x hx1 hx2
    have hcz : c.close ≠ 0 := by
      rw [← hcb]
      exact hz x hx
    rw [hch]
    simp [hcb, hcz]

/-- C2, witness: the clamped calculator on a two-candle history whose
referenced closes are non-zero. -/
theorem changes_clamped_witness :
    2 ≤ c2series.history.length
    ∧ (∀ x ∈ clampIntervals c2series.history.length,
        closeBack c2series x ≠ 0)
    ∧ (c2series.changes = .ok ((clampIntervals c2series.history.length).map
          fun x => (c2series.last - closeBack c2series x) * 100
            / closeBack c2series x)
      ∧ (clampIntervals c2series.history.length).length
          = CHANGE_INTERVALS.length
      ∧ clampIntervals c2series.history.length = CHANGE_INTERVALS.map fun v =>
          if v ≤ c2series.history.length then v
          else deepestAvail c2series.history.length) :=
  ⟨by decide,
   by intro x hx
      have hcl : clampIntervals c2series.history.length
          = [1, 1, 1, 1, 1, 1, 1, 1] := by decide
      rw [hcl] at hx
      fin_cases hx <;> norm_num [closeBack, pyNegIndex, c2series],
   (changes_clamped c2series).2 (by decide)
     (by intro x hx
         have hcl : clampIntervals c2series.history.length
             = [1, 1, 1, 1, 1, 1, 1, 1] := by decide
         rw [hcl] at hx
         fin_cases hx <;> norm_num [closeBack, pyNegIndex, c2series])⟩

theorem getLast?_isSome_of_ne_nil (l : List α) (h : l ≠ []) :
    ∃ a, l.getLast? = some a :=
  ⟨l.getLast h, List.getLast?_eq_getLast l h⟩

theorem expandCandle_length (dups : ℕ) (p : Candle) :
    (expandCandle dups p).length = dups := by
  unfold expandCandle
  rw [List.length_set, List.length_replicate]

/-- Setting the final element of a replicated list splits it into the
unchanged prefix and the new last element. -/
theorem replicate_set_last (n : ℕ) (hn : 0 < n) (a b : α) :
    (List.replicate n a).set (n - 1) b = List.replicate (n - 1) a ++ [b] := by
  induction n with
  | zero => omega
  | succ n ih =>
    cases n with
    | zero => simp
    | succ m =>
      rw [List.replicate_succ, Nat.succ_sub_one, List.set]
      have := ih (Nat.succ_pos m)
      rw [Nat.succ_sub_one] at this
      rw [this]
      simp [List.replicate_succ]

/-- The expansion of one source candle: `dups - 1` copies carrying the
source open as close, then one final copy carrying the source's true
close; every copy shares the source `high`/`low`/`open` and carries
`volume / dups`. -/
theorem expandCandle_eq (dups : ℕ) (hd : 0 < dups) (p : Candle) :
    expandCandle dups p
      = List.replicate (dups - 1)
          ⟨p.high, p.low, p.opn, p.opn, p.volume / dups⟩
        ++ [⟨p.high, p.low, p.opn, p.close, p.volume / dups⟩] := by
  unfold expandCandle
  exact replicate_set_last dups hd _ _

theorem expandCandle_mem (dups : ℕ) (hd : 0 < dups) (p : Candle)
    (c : Candle) (hc : c ∈ expandCandle dups p) :
    c = ⟨p.high, p.low, p.opn, p.opn, p.volume / dups⟩
    ∨ c = ⟨p.high, p.low, p.opn, p.close, p.volume / dups⟩ := by
  rw [expandCandle_eq dups hd] at hc
  rcases List.mem_append.mp hc with h | h
  · exact Or.inl (List.eq_of_mem_replicate h)
  · simp only [List.mem_singleton] at h
    exact Or.inr h

/-- The four per-group properties of the synthetic candles. -/
theorem expandCandle_props (dups : ℕ) (hd : 0 < dups) (p : Candle) :
    (expandCandle dups p).length = dups
    ∧ (∀ c ∈ expandCandle dups p,
        c.high = p.high ∧ c.low = p.low ∧ c.opn = p.opn
        ∧ c.volume = p.volume / dups)
    ∧ (expandCandle dups p).map Candle.close
        = List.replicate (dups - 1) p.opn ++ [p.close]
    ∧ ((expandCandle dups p).map Candle.volume).sum = p.volume := by
  refine ⟨expandCandle_length dups p, ?_, ?_, ?_⟩
  · intro c hc
    rcases expandCandle_mem dups hd p c hc with h | h <;> subst h <;>
      exact ⟨rfl, rfl, rfl, rfl⟩
  · rw [expandCandle_eq dups hd]
    simp
  · rw [expandCandle_eq dups hd]
    have hq : (dups : ℚ) ≠ 0 := Nat.cast_ne_zero.mpr hd.ne'
    have hcast : ((dups - 1 : ℕ) : ℚ) = (dups : ℚ) - 1 := by
      rw [Nat.cast_sub hd]
      norm_num
    simp only [List.map_append, List.map_replicate, List.map_cons,
      List.map_nil, List.sum_append, List.sum_replicate, List.sum_cons,
      List.sum_nil, smul_eq_mul, add_zero, hcast]
    field_simp
    ring

/-- With a non-zero duplication count the source loop never raises: it
produces the concatenation of the per-source expansions, in order. -/
theorem expandAll_ok (dups : ℕ) (hd : dups ≠ 0) (prices : List Candle) :
    expandAll dups prices = .ok (prices.flatMap (expandCandle dups)) := by
  induction prices with
  | nil => rfl
  | cons p rest ih => simp [expandAll, hd, ih, List.flatMap_cons]

theorem bind_expand_ne_nil (dups : ℕ) (hd : 0 < dups)
    (prices : List Candle) (hne : prices ≠ []) :
    prices.flatMap (expandCandle dups) ≠ [] := by
  cases prices with
  | nil => exact absurd rfl hne
  | cons p rest =>
    rw [List.flatMap_cons]
    intro h
    rcases List.append_eq_nil.mp h with ⟨h1, _⟩
    have hlen := expandCandle_length dups p
    rw [h1] at hlen
    simp at hlen
    omega

/-- The state written back by the expansion core: the series' history is
wholesale-replaced by the concatenated per-source expansions (the new
`last` is the final synthetic close). -/
theorem add_all_core_snd (tickers0 : List (String × PriceHistory))
    (ph : PriceHistory) (label : String) (prices : List Candle) (dups : ℕ)
    (hd : 0 < dups) (hne : prices ≠ []) :
    ∃ lastq, (add_all_core tickers0 ph label prices dups).2.tickers
      = dictSet tickers0 label
          { ph with history := prices.flatMap (expandCandle dups),
                    last := lastq } := by
  obtain ⟨pexp, hlast⟩ := getLast?_isSome_of_ne_nil _
    (bind_expand_ne_nil dups hd prices hne)
  refine ⟨pexp.close, ?_⟩
  simp only [add_all_core, expandAll_ok dups hd.ne' prices, hlast]
  cases hch : ({ ph with history := prices.flatMap (expandCandle dups), last := pexp.close } : PriceHistory).changes <;> simp [hch]

/-- The exception behaviour of the expansion core: `IndexError` on an
empty input (after clearing the history) or a zero duplication count;
success whenever `dups ≥ 1`, the input is non-empty and no source open or
close is zero. -/
theorem add_all_core_fst (tickers0 : List (String × PriceHistory))
    (ph : PriceHistory) (label : String) (prices : List Candle) (dups : ℕ) :
    (prices = [] →
      (add_all_core tickers0 ph label prices dups).1 = some .indexError
      ∧ ∃ ph2, dictFind (add_all_core tickers0 ph label prices
          dups).2.tickers label = some ph2 ∧ ph2.history = [])
    ∧ (prices ≠ [] → dups = 0 →
        (add_all_core tickers0 ph label prices dups).1 = some .indexError)
    ∧ (prices ≠ [] → 0 < dups →
        (∀ p ∈ prices, p.opn ≠ 0 ∧ p.close ≠ 0) →
        (add_all_core tickers0 ph label prices dups).1 = none) := by
  refine ⟨?_, ?_, ?_⟩
  · intro he
    subst he
    refine ⟨by simp [add_all_core, expandAll], ?_⟩
    simp only [add_all_core, expandAll]
    exact ⟨_, dictFind_dictSet_self _ _ _, rfl⟩
  · intro hne hd
    subst hd
    cases prices with
    | nil => exact absurd rfl hne
    | cons p rest => simp [add_all_core, expandAll]
  · intro hne hd hz
    obtain ⟨pexp, hlast⟩ := getLast?_isSome_of_ne_nil _
      (bind_expand_ne_nil dups hd prices hne)
    have hok : ∃ out, ({ ph with history := prices.flatMap (expandCandle dups), last := pexp.close } : PriceHistory).changes = .ok out ∧ out.length = CHANGE_INTERVALS.length := by
      apply changes_ok_of_nonzero
      intro c hc
      simp only at hc
      obtain ⟨p, hp, hcp⟩ := List.mem_flatMap.mp hc
      rcases expandCandle_mem dups hd p c hcp with h | h <;> subst h
      · exact (hz p hp).1
      · exact (hz p hp).2
    obtain ⟨out, hout, _⟩ := hok
    simp only [add_all_core, expandAll_ok dups hd.ne' prices, hlast, hout]

/-- C3: backfill import with `interval = k · flushInterval` (`k ≥ 1`)
replaces the series' history with, per source candle, exactly `k`
synthetic candles sharing the source `open`/`high`/`low`, each carrying
`volume / k`, closing at the source open except the last of the group
which carries the true close; the group's volumes sum exactly to the
source volume. -/
theorem add_all_expands_backfill (tr : PriceTracker) (label : String)
    (prices : List Candle) (k : ℕ) (hk : 0 < k) (hne : prices ≠ []) :
    ∃ ph, dictFind (tr.add_all label prices
        (k * PRICE_HISTORY_RESOLUTION)).2.tickers label = some ph
      ∧ ph.history = prices.flatMap (expandCandle k)
      ∧ ∀ p ∈ prices,
          (expandCandle k p).length = k
          ∧ (∀ c ∈ expandCandle k p,
              c.high = p.high ∧ c.low = p.low ∧ c.opn = p.opn
              ∧ c.volume = p.volume / k)
          ∧ (expandCandle k p).map Candle.close
              = List.replicate (k - 1) p.opn ++ [p.close]
          ∧ ((expandCandle k p).map Candle.volume).sum = p.volume := by
  have hdups : k * PRICE_HISTORY_RESOLUTION / PRICE_HISTORY_RESOLUTION = k := by
    simp only [PRICE_HISTORY_RESOLUTION]
    omega
  obtain ⟨lastq, hsnd⟩ := add_all_core_snd
    (if dictContains tr.tickers label then tr.tickers
     else tr.tickers ++ [(label, PriceHistory.init label)])
    ((dictFind (if dictContains tr.tickers label then tr.tickers
      else tr.tickers ++ [(label, PriceHistory.init label)]) label).getD
      (PriceHistory.init label)) label prices k hk hne
  have heq : tr.add_all label prices (k * PRICE_HISTORY_RESOLUTION)
      = add_all_core
        (if dictContains tr.tickers label then tr.tickers
         else tr.tickers ++ [(label, PriceHistory.init label)])
        ((dictFind (if dictContains tr.tickers label then tr.tickers
          else tr.tickers ++ [(label, PriceHistory.init label)]) label).getD
          (PriceHistory.init label)) label prices k := by
    simp only [PriceTracker.add_all, hdups]
  rw [heq, hsnd]
  refine ⟨_, dictFind_dictSet_self _ _ _, rfl, ?_⟩
  intro p hp
  exact expandCandle_props k hk p

/-- C3, witness: one source candle, `k = 5`: five synthetic candles,
volumes summing to the source volume. -/
theorem add_all_expands_backfill_witness :
    0 < 5
    ∧ ([(⟨4, 1, 2, 3, 10⟩ : Candle)] ≠ ([] : List Candle))
    ∧ ∃ ph, dictFind (PriceTracker.init.add_all "BTC_ETH"
          [⟨4, 1, 2, 3, 10⟩] (5 * PRICE_HISTORY_RESOLUTION)).2.tickers
          "BTC_ETH" = some ph
        ∧ ph.history = [(⟨4, 1, 2, 3, 10⟩ : Candle)].flatMap (expandCandle 5)
        ∧ ∀ p ∈ [(⟨4, 1, 2, 3, 10⟩ : Candle)],
            (expandCandle 5 p).length = 5
            ∧ (∀ c ∈ expandCandle 5 p,
                c.high = p.high ∧ c.low = p.low ∧ c.opn = p.opn
                ∧ c.volume = p.volume / 5)
            ∧ (expandCandle 5 p).map Candle.close
                = List.replicate (5 - 1) p.opn ++ [p.close]
            ∧ ((expandCandle 5 p).map Candle.volume).sum = p.volume :=
  ⟨by decide, by simp,
   add_all_expands_backfill PriceTracker.init "BTC_ETH"
     [⟨4, 1, 2, 3, 10⟩] 5 (by decide) (by simp)⟩

/-- C7, counterexample: `interval = 90` seconds is not a positive integer
multiple of the 60-second flush interval, yet `add_all` succeeds without
any exception (the truncating `int(interval / 60)` quietly yields one
duplication). -/
theorem add_all_accepts_nonmultiple_interval :
    (PriceTracker.init.add_all "X" [⟨4, 1, 2, 3, 10⟩] 90).1 = none := by
  norm_num [PriceTracker.init, PriceTracker.add_all, add_all_core,
    PriceHistory.init, PriceHistory.changes, PRICE_HISTORY_RESOLUTION,
    expandAll, expandCandle, dictContains, dictFind, dictSet, List.set,
    List.replicate, CHANGE_INTERVALS]

/-- C7, amended: `add_all` validates nothing.  An empty input fails with
`IndexError` (not `InvalidValue`) — and only after the series' history has
been replaced by the empty list; a duplication count of zero (interval
below the flush interval) fails with `IndexError` at the first source
candle; any non-empty input with `interval div 60 ≥ 1` — multiples and
non-multiples alike — is accepted (given non-degenerate source prices, no
exception at all is raised). -/
theorem add_all_no_validation (tr : PriceTracker) (label : String)
    (prices : List Candle) (interval : ℕ) :
    (prices = [] →
      (tr.add_all label prices interval).1 = some .indexError
      ∧ ∃ ph2, dictFind (tr.add_all label prices interval).2.tickers label
          = some ph2 ∧ ph2.history = [])
    ∧ (prices ≠ [] → interval / PRICE_HISTORY_RESOLUTION = 0 →
        (tr.add_all label prices interval).1 = some .indexError)
    ∧ (prices ≠ [] → 0 < interval / PRICE_HISTORY_RESOLUTION →
        (∀ p ∈ prices, p.opn ≠ 0 ∧ p.close ≠ 0) →
        (tr.add_all label prices interval).1 = none) :=
  add_all_core_fst _ _ label prices (interval / PRICE_HISTORY_RESOLUTION)

/-- C7, witness: the empty-input branch of the amended theorem at a
concrete call. -/
theorem add_all_no_validation_witness :
    (([] : List Candle) = [])
    ∧ ((PriceTracker.init.add_all "X" ([] : List Candle) 60).1
        = some .indexError
      ∧ ∃ ph2, dictFind (PriceTracker.init.add_all "X" ([] : List Candle)
          60).2.tickers "X" = some ph2 ∧ ph2.history = []) :=
  ⟨rfl, (add_all_no_validation PriceTracker.init "X" [] 60).1 rfl⟩
